import Mathlib

/-!
Verification of the file-editing subsystem of DesktopCommanderMCP
(`src/tools/edit.ts`).

JavaScript strings are modelled as `List Char` (`JStr`).  File contents,
search/replace payloads and parsed block fields live in this type; error
messages and file paths passed to the engines are Lean `String`s.

The filesystem seen by one call is the content of the single target file,
threaded explicitly.  The external `git` tool and the node `fs`/`exec`
primitives used by `gitBasedReplace` are abstracted by a `GitOracle` of
success flags; theorems quantify over all oracles.
-/

/-- JavaScript string, modelled as a list of characters. -/
abbrev JStr := List Char

/-- The `{ search, replace }` record of `edit.ts`. -/
structure SearchReplace where
  search : JStr
  replace : JStr
deriving DecidableEq, Repr

/-- JavaScript `hay.indexOf(needle)`: index of the first occurrence of
`needle` in `hay`, `none` for JS's `-1`.  The empty needle matches at 0. -/
def strIndexOf (needle : JStr) : JStr → Option Nat
  | [] => if needle.isPrefixOf [] then some 0 else none
  | c :: t =>
    if needle.isPrefixOf (c :: t) then some 0
    else (strIndexOf needle t).map (· + 1)

/-- `simpleInMemoryReplace` of `edit.ts`, as the content transformation it
performs: read the content, find the first occurrence of `block.search`
(error `Search content not found in <filePath>` when absent), and splice
`content.substring(0, i) + block.replace + content.substring(i + search.length)`.
On success the returned content is what the engine writes back. -/
def simpleInMemoryReplace (filePath : String) (content : JStr)
    (block : SearchReplace) : Except String JStr :=
  match strIndexOf block.search content with
  | none => .error ("Search content not found in " ++ filePath)
  | some searchIndex =>
    .ok (content.take searchIndex ++ block.replace ++
         content.drop (searchIndex + block.search.length))

/-- Success flags for the node `fs`/`child_process.exec` steps performed by
`gitBasedReplace`: mkdir of the temp dir, copy of the target file, `git
init`/config, `git add`/`git commit`, `git diff`, `git apply`, `git apply
--3way`, and the `fs.rm` cleanup. -/
structure GitOracle where
  mkdirOk : Bool
  copyOk : Bool
  initOk : Bool
  commitOk : Bool
  diffOk : Bool
  applyOk : Bool
  apply3Ok : Bool
  rmOk : Bool
deriving DecidableEq, Repr

/-- The `try` body of `gitBasedReplace` in `edit.ts`: mkdir, copy the file
into the temp dir, `git init` + config, `git add` + commit, search the
copied content (error `Search content not found in <filePath>` when
absent), write the spliced content, `git diff`, then `git apply` with one
`--3way` retry.  Returns the target file's new content on success.
Patch application is modelled from the spec: a successfully applied patch
materializes the complete new content, a failed apply leaves the target
untouched. -/
def gitBody (filePath : String) (content : JStr) (block : SearchReplace)
    (o : GitOracle) : Except String JStr :=
  if o.mkdirOk then
    if o.copyOk then
      if o.initOk then
        if o.commitOk then
          match strIndexOf block.search content with
          | none => .error ("Search content not found in " ++ filePath)
          | some searchIndex =>
            let newContent := content.take searchIndex ++ block.replace ++
              content.drop (searchIndex + block.search.length)
            if o.diffOk then
              if o.applyOk then .ok newContent
              else if o.apply3Ok then .ok newContent
              else .error "Failed to apply changes: git apply failed"
            else .error "git diff failed"
        else .error "git commit failed"
      else .error "git copy/init failed"
    else .error "file copy failed"
  else .error "mkdir failed"

instance {α β : Type} [DecidableEq α] [DecidableEq β] :
    DecidableEq (Except α β) := fun a b =>
  match a, b with
  | .ok x, .ok y => if h : x = y then .isTrue (by rw [h]) else
      .isFalse (by intro hc; cases hc; exact h rfl)
  | .error x, .error y => if h : x = y then .isTrue (by rw [h]) else
      .isFalse (by intro hc; cases hc; exact h rfl)
  | .ok _, .error _ => .isFalse (by intro hc; cases hc)
  | .error _, .ok _ => .isFalse (by intro hc; cases hc)

/-- Observable result of one `gitBasedReplace` invocation: the primary
outcome, the target file's content afterwards, whether the cleanup phase
ran, and whether the temp directory was actually removed. -/
structure GitRun where
  outcome : Except String Unit
  content : JStr
  cleanupRan : Bool
  tempRemoved : Bool
deriving DecidableEq, Repr

/-- `gitBasedReplace` of `edit.ts`: run the `try` body, then the `finally`
block unconditionally removes the temp directory, catching and logging (but
never propagating) a removal failure. -/
def gitBasedReplace (filePath : String) (content : JStr)
    (block : SearchReplace) (o : GitOracle) : GitRun :=
  match gitBody filePath content block o with
  | .ok newContent => ⟨.ok (), newContent, true, o.rmOk⟩
  | .error e => ⟨.error e, content, true, o.rmOk⟩

/-- Observable result of one `performSearchReplace` call: the outcome seen
by the caller and the target file's content afterwards. -/
structure EditRun where
  outcome : Except String Unit
  content : JStr
deriving DecidableEq, Repr

/-- The wrapping applied by `performSearchReplace`'s outer `catch`:
`throw new Error(Failed to perform search/replace: <message>)`. -/
def wrapErr (e : String) : String := "Failed to perform search/replace: " ++ e

/-- `performSearchReplace` of `edit.ts`.  `stat` is the result of
`fs.stat` (`none` when stat throws).  Files under 1,000,000 bytes go to
`simpleInMemoryReplace`; larger ones to `gitBasedReplace` with one
fallback through `simpleInMemoryReplace` on any git error.  Every error
escaping the body is rewrapped by the outer `catch`. -/
def performSearchReplace (filePath : String) (stat : Option Nat)
    (content : JStr) (block : SearchReplace) (o : GitOracle) : EditRun :=
  match stat with
  | none => ⟨.error (wrapErr "no such file or directory"), content⟩
  | some size =>
    if size < 1000000 then
      match simpleInMemoryReplace filePath content block with
      | .ok c => ⟨.ok (), c⟩
      | .error e => ⟨.error (wrapErr e), content⟩
    else
      match gitBasedReplace filePath content block o with
      | ⟨.ok _, c, _, _⟩ => ⟨.ok (), c⟩
      | ⟨.error _, c, _, _⟩ =>
        match simpleInMemoryReplace filePath c block with
        | .ok c2 => ⟨.ok (), c2⟩
        | .error e => ⟨.error (wrapErr e), c⟩

/-- JavaScript `split('\n')` on the character-list model: split at every
newline character; always returns at least one (possibly empty) line. -/
def splitLines : JStr → List JStr
  | [] => [[]]
  | c :: t =>
    if c = '\n' then [] :: splitLines t
    else
      match splitLines t with
      | [] => [[c]]
      | h :: r => (c :: h) :: r

/-- JavaScript `lines.join('\n')`. -/
def joinLines : List JStr → JStr
  | [] => []
  | [x] => x
  | x :: y :: ys => x ++ '\n' :: joinLines (y :: ys)

/-- JavaScript `String.prototype.trim()`: strip whitespace from both ends. -/
def jsTrim (s : JStr) : JStr :=
  ((s.dropWhile Char.isWhitespace).reverse.dropWhile Char.isWhitespace).reverse

/-- JavaScript `lines.indexOf(x)` on the line list: index of the first
line equal to `x`, `none` for `-1`. -/
def lineIndexOf (x : JStr) : List JStr → Option Nat
  | [] => none
  | y :: t => if y = x then some 0 else (lineIndexOf x t).map (· + 1)

/-- The `<<<<<<< SEARCH` marker line. -/
def searchMarker : JStr := "<<<<<<< SEARCH".data

/-- The `=======` divider line. -/
def dividerMarker : JStr := "=======".data

/-- The `>>>>>>> REPLACE` marker line. -/
def replaceMarker : JStr := ">>>>>>> REPLACE".data

/-- `parseEditBlock` of `edit.ts`: split into lines, trim line 0 as the
file path, locate the three marker lines by exact match, fail if any is
absent, and slice out the search and replace sections. -/
def parseEditBlock (blockContent : JStr) :
    Except String (JStr × SearchReplace) :=
  let lines := splitLines blockContent
  let filePath := jsTrim (lines.headD [])
  match lineIndexOf searchMarker lines, lineIndexOf dividerMarker lines,
        lineIndexOf replaceMarker lines with
  | some searchStart, some divider, some replaceEnd =>
    .ok (filePath,
      ⟨joinLines ((lines.drop (searchStart + 1)).take (divider - (searchStart + 1))),
       joinLines ((lines.drop (divider + 1)).take (replaceEnd - (divider + 1)))⟩)
  | _, _, _ =>
    .error "Invalid edit block format. REQUIRED: Exact markers"


/-- Number of positions of `h` at which `n` occurs (used to state the
exactly-one-occurrence hypothesis of the strategy-equivalence property). -/
def occCount (n h : JStr) : Nat :=
  ((List.range (h.length + 1)).filter (fun j => n.isPrefixOf (h.drop j))).length

/-- The `git init`/config command line of `gitBasedReplace`, built by plain
template interpolation of the temp directory path. -/
def gitInitCmd (tempDir : String) : String :=
  "cd " ++ tempDir ++
    " && git init && git config user.email \"temp@example.com\" && git config user.name \"Temp User\""

/-- The `git add`/`git commit` command line of `gitBasedReplace`, built by
plain template interpolation of the temp directory and the target file's
base name. -/
def gitCommitCmd (tempDir baseName : String) : String :=
  "cd " ++ tempDir ++ " && git add " ++ baseName ++
    " && git commit -m \"Original file\""

/-- The `git apply` command line of `gitBasedReplace`, built by plain
template interpolation of the target file's directory and the patch file
path. -/
def gitApplyCmd (fileDir patchFile : String) : String :=
  "cd " ++ fileDir ++ " && git apply " ++ patchFile

/-- Split a character list at every occurrence of a space.
Modelled from the spec: `runShell(commandLine)` hands the line to a POSIX
shell, which splits unquoted command text into words at spaces. -/
def splitSpaces : JStr → List JStr
  | [] => [[]]
  | c :: t =>
    if c = ' ' then [] :: splitSpaces t
    else
      match splitSpaces t with
      | [] => [[c]]
      | h :: r => (c :: h) :: r

/-- Modelled from the spec: the argument the shell's `cd` receives from a
command line of the form `cd <text>` is the maximal space-free word after
`cd `. -/
def shellCdArg (cmd : String) : String :=
  ⟨(cmd.data.drop 3).takeWhile (fun c => c ≠ ' ')⟩

/-! ### First-occurrence lemmas for `strIndexOf` -/

theorem strIndexOf_nil (n : JStr) :
    strIndexOf n [] = if n.isPrefixOf [] then some 0 else none := rfl

theorem strIndexOf_cons (n : JStr) (c : Char) (t : JStr) :
    strIndexOf n (c :: t) =
      if n.isPrefixOf (c :: t) then some 0
      else (strIndexOf n t).map (· + 1) := rfl

theorem infix_iff_prefix_drop (n h : JStr) :
    n <:+: h ↔ ∃ j, n <+: h.drop j := by
  constructor
  · rintro ⟨s, t, rfl⟩
    refine ⟨s.length, t, ?_⟩
    rw [List.append_assoc, List.drop_left]
  · rintro ⟨j, t, ht⟩
    refine ⟨h.take j, t, ?_⟩
    rw [List.append_assoc, ht, List.take_append_drop]

theorem strIndexOf_prefix (n : JStr) : ∀ (h : JStr) (i : Nat),
    strIndexOf n h = some i → n <+: h.drop i := by
  intro h
  induction h with
  | nil =>
    intro i hi
    rw [strIndexOf_nil] at hi
    by_cases hn : n.isPrefixOf []
    · rw [if_pos hn, Option.some.injEq] at hi
      subst hi
      exact List.isPrefixOf_iff_prefix.mp hn
    · rw [if_neg hn] at hi
      exact absurd hi (by simp)
  | cons c t ih =>
    intro i hi
    rw [strIndexOf_cons] at hi
    by_cases hp : n.isPrefixOf (c :: t)
    · rw [if_pos hp, Option.some.injEq] at hi
      subst hi
      exact List.isPrefixOf_iff_prefix.mp hp
    · rw [if_neg hp] at hi
      rcases hrec : strIndexOf n t with _ | k
      · rw [hrec] at hi
        exact absurd hi (by simp)
      · rw [hrec] at hi
        simp only [Option.map_some', Option.some.injEq] at hi
        subst hi
        simpa using ih k hrec

theorem strIndexOf_min (n : JStr) : ∀ (h : JStr) (i : Nat),
    strIndexOf n h = some i → ∀ j, j < i → ¬ n <+: h.drop j := by
  intro h
  induction h with
  | nil =>
    intro i hi j hj
    rw [strIndexOf_nil] at hi
    by_cases hn : n.isPrefixOf []
    · rw [if_pos hn, Option.some.injEq] at hi
      omega
    · rw [if_neg hn] at hi
      exact absurd hi (by simp)
  | cons c t ih =>
    intro i hi j hj
    rw [strIndexOf_cons] at hi
    by_cases hp : n.isPrefixOf (c :: t)
    · rw [if_pos hp, Option.some.injEq] at hi
      omega
    · rw [if_neg hp] at hi
      rcases hrec : strIndexOf n t with _ | k
      · rw [hrec] at hi
        exact absurd hi (by simp)
      · rw [hrec] at hi
        simp only [Option.map_some', Option.some.injEq] at hi
        subst hi
        match j with
        | 0 =>
          rw [List.drop_zero]
          exact fun hc => hp (List.isPrefixOf_iff_prefix.mpr hc)
        | j + 1 =>
          have := ih k hrec j (by omega)
          simpa using this

theorem strIndexOf_le (n : JStr) : ∀ (h : JStr) (i : Nat),
    strIndexOf n h = some i → i ≤ h.length := by
  intro h
  induction h with
  | nil =>
    intro i hi
    rw [strIndexOf_nil] at hi
    by_cases hn : n.isPrefixOf []
    · rw [if_pos hn, Option.some.injEq] at hi
      omega
    · rw [if_neg hn] at hi
      exact absurd hi (by simp)
  | cons c t ih =>
    intro i hi
    rw [strIndexOf_cons] at hi
    by_cases hp : n.isPrefixOf (c :: t)
    · rw [if_pos hp, Option.some.injEq] at hi
      omega
    · rw [if_neg hp] at hi
      rcases hrec : strIndexOf n t with _ | k
      · rw [hrec] at hi
        exact absurd hi (by simp)
      · rw [hrec] at hi
        simp only [Option.map_some', Option.some.injEq] at hi
        subst hi
        have := ih k hrec
        simp only [List.length_cons]
        omega

theorem strIndexOf_found (n : JStr) : ∀ h : JStr, n <:+: h →
    ∃ i, strIndexOf n h = some i := by
  intro h
  induction h with
  | nil =>
    intro hocc
    obtain ⟨s, t, hst⟩ := hocc
    have hn : n = [] := by
      rcases List.append_eq_nil.mp hst with ⟨hsn, htn⟩
      exact List.append_eq_nil.mp hsn |>.2
    subst hn
    exact ⟨0, by rw [strIndexOf_nil, if_pos (by simp [List.isPrefixOf_iff_prefix])]⟩
  | cons c t ih =>
    intro hocc
    by_cases hp : n.isPrefixOf (c :: t)
    · exact ⟨0, by rw [strIndexOf_cons, if_pos hp]⟩
    · have htail : n <:+: t := by
        rw [infix_iff_prefix_drop] at hocc ⊢
        obtain ⟨j, hj⟩ := hocc
        match j with
        | 0 =>
          rw [List.drop_zero] at hj
          exact absurd (List.isPrefixOf_iff_prefix.mpr hj) hp
        | j + 1 =>
          exact ⟨j, by simpa using hj⟩
      obtain ⟨k, hk⟩ := ih htail
      exact ⟨k + 1, by rw [strIndexOf_cons, if_neg hp, hk]; rfl⟩

theorem strIndexOf_not_found (n h : JStr) (hocc : ¬ n <:+: h) :
    strIndexOf n h = none := by
  rcases he : strIndexOf n h with _ | i
  · rfl
  · exfalso
    apply hocc
    rw [infix_iff_prefix_drop]
    exact ⟨i, strIndexOf_prefix n h i he⟩

/-- Decomposition at the found index: the content splits as
`take i ++ search ++ drop (i + search.length)`. -/
theorem strIndexOf_decomp (n h : JStr) (i : Nat)
    (hi : strIndexOf n h = some i) :
    h = h.take i ++ n ++ h.drop (i + n.length) := by
  obtain ⟨t, ht⟩ := strIndexOf_prefix n h i hi
  have hdrop : h.drop (i + n.length) = t := by
    have h1 : (h.drop i).drop n.length = t := by rw [← ht]; simp
    rw [List.drop_drop] at h1
    exact h1
  rw [hdrop, List.append_assoc, ht, List.take_append_drop]

/-! ### Case analysis of the git engine -/

/-- Inversion: a successful git body run found the search text and produced
the spliced content at its first occurrence. -/
theorem gitBody_ok (fp : String) (content : JStr) (block : SearchReplace)
    (o : GitOracle) (c : JStr)
    (hb : gitBody fp content block o = .ok c) :
    ∃ i, strIndexOf block.search content = some i ∧
      c = content.take i ++ block.replace ++
          content.drop (i + block.search.length) := by
  rcases o with ⟨mk, cp, ini, cm, df, ap, ap3, rm⟩
  rcases hidx : strIndexOf block.search content with _ | i
  · cases mk <;> cases cp <;> cases ini <;> cases cm <;>
      simp [gitBody, hidx] at hb
  · refine ⟨i, rfl, ?_⟩
    cases mk <;> cases cp <;> cases ini <;> cases cm <;> cases df <;>
      cases ap <;> cases ap3 <;> simp [gitBody, hidx] at hb <;>
      exact hb.symm.trans (List.append_assoc _ _ _).symm

/-- Either every step up to and including the patch apply succeeds and the
body yields the spliced content at the first occurrence, or the body fails
with some error. -/
theorem gitBody_cases (fp : String) (content : JStr) (block : SearchReplace)
    (o : GitOracle) :
    (∃ i, strIndexOf block.search content = some i ∧
      gitBody fp content block o =
        .ok (content.take i ++ block.replace ++
             content.drop (i + block.search.length)))
    ∨ (∃ e, gitBody fp content block o = .error e) := by
  rcases hb : gitBody fp content block o with e | c
  · exact Or.inr ⟨e, rfl⟩
  · obtain ⟨i, hi, hc⟩ := gitBody_ok fp content block o c hb
    exact Or.inl ⟨i, hi, by rw [hc]⟩

/-- When the search text is absent, every run of the git body fails. -/
theorem gitBody_not_found (fp : String) (content : JStr)
    (block : SearchReplace) (o : GitOracle)
    (hidx : strIndexOf block.search content = none) :
    ∃ e, gitBody fp content block o = .error e := by
  rcases gitBody_cases fp content block o with ⟨i, hi, _⟩ | he
  · rw [hidx] at hi
    cases hi
  · exact he

/-- Whenever the search text is found at index `i`, `performSearchReplace`
succeeds and leaves the spliced content, for every file size and every
behavior of the external git steps. -/
theorem perform_found_run (fp : String) (size : Nat) (content : JStr)
    (block : SearchReplace) (o : GitOracle) (i : Nat)
    (hi : strIndexOf block.search content = some i) :
    performSearchReplace fp (some size) content block o =
      ⟨.ok (), content.take i ++ block.replace ++
               content.drop (i + block.search.length)⟩ := by
  by_cases hsz : size < 1000000
  · simp [performSearchReplace, hsz, simpleInMemoryReplace, hi]
  · rcases gitBody_cases fp content block o with ⟨i', hi', hok⟩ | ⟨e, herr⟩
    · rw [hi] at hi'
      injection hi' with h
      subst h
      simp [performSearchReplace, hsz, gitBasedReplace, hok]
    · simp [performSearchReplace, hsz, gitBasedReplace, herr,
        simpleInMemoryReplace, hi]

/-- C1: for every file whose content contains the search string,
`performSearchReplace` terminates successfully and the resulting content is
the original with the first occurrence of the search string replaced: the
content splits as `a ++ search ++ b` where no occurrence starts inside `a`,
and the result is `a ++ replace ++ b` (so the prefix and the suffix, with
any later occurrences, are unchanged). -/
theorem perform_first_occurrence_replace (fp : String) (size : Nat)
    (content : JStr) (block : SearchReplace) (o : GitOracle)
    (hocc : block.search <:+: content) :
    ∃ a b, content = a ++ block.search ++ b ∧
      (∀ j, j < a.length → ¬ block.search <+: content.drop j) ∧
      (performSearchReplace fp (some size) content block o).outcome =
        .ok () ∧
      (performSearchReplace fp (some size) content block o).content =
        a ++ block.replace ++ b := by
  obtain ⟨i, hi⟩ := strIndexOf_found block.search content hocc
  have hrun := perform_found_run fp size content block o i hi
  have hle := strIndexOf_le block.search content i hi
  have hlen : (content.take i).length = i := by
    rw [List.length_take]
    omega
  refine ⟨content.take i, content.drop (i + block.search.length),
    strIndexOf_decomp block.search content i hi, ?_, ?_, ?_⟩
  · intro j hj
    rw [hlen] at hj
    exact strIndexOf_min block.search content i hi j hj
  · rw [hrun]
  · rw [hrun]

/-- Witness for C1, at the concrete scenario of the test suite. -/
theorem perform_first_occurrence_replace_witness :
    ∃ a b,
      "This is a test file with original content that will be replaced.".data =
        a ++ "original content".data ++ b ∧
      (∀ j, j < a.length →
        ¬ "original content".data <+:
          ("This is a test file with original content that will be replaced.".data).drop j) ∧
      (performSearchReplace "test-file.txt" (some 65)
        "This is a test file with original content that will be replaced.".data
        ⟨"original content".data, "new content".data⟩
        ⟨true, true, true, true, true, true, true, true⟩).outcome = .ok () ∧
      (performSearchReplace "test-file.txt" (some 65)
        "This is a test file with original content that will be replaced.".data
        ⟨"original content".data, "new content".data⟩
        ⟨true, true, true, true, true, true, true, true⟩).content =
        a ++ "new content".data ++ b :=
  perform_first_occurrence_replace "test-file.txt" 65
    "This is a test file with original content that will be replaced.".data
    ⟨"original content".data, "new content".data⟩
    ⟨true, true, true, true, true, true, true, true⟩ (by decide)

/-- C2: for every file whose content does not contain the search string,
`performSearchReplace` fails with an error and the file's content is
unchanged, for every stat result and every behavior of the git steps. -/
theorem perform_not_found_unchanged (fp : String) (stat : Option Nat)
    (content : JStr) (block : SearchReplace) (o : GitOracle)
    (hocc : ¬ block.search <:+: content) :
    (∃ e, (performSearchReplace fp stat content block o).outcome =
      .error e) ∧
    (performSearchReplace fp stat content block o).content = content := by
  have hidx := strIndexOf_not_found block.search content hocc
  rcases stat with _ | size
  · exact ⟨⟨_, rfl⟩, rfl⟩
  · by_cases hsz : size < 1000000
    · refine ⟨⟨wrapErr ("Search content not found in " ++ fp), ?_⟩, ?_⟩ <;>
        simp [performSearchReplace, hsz, simpleInMemoryReplace, hidx]
    · obtain ⟨e, herr⟩ := gitBody_not_found fp content block o hidx
      refine ⟨⟨wrapErr ("Search content not found in " ++ fp), ?_⟩, ?_⟩ <;>
        simp [performSearchReplace, hsz, gitBasedReplace, herr,
          simpleInMemoryReplace, hidx]

/-- Witness for C2: absent search text on a small file. -/
theorem perform_not_found_unchanged_witness :
    (∃ e, (performSearchReplace "test-file.txt" (some 11) "hello world".data
      ⟨"absent text".data, "x".data⟩
      ⟨true, true, true, true, true, true, true, true⟩).outcome =
        .error e) ∧
    (performSearchReplace "test-file.txt" (some 11) "hello world".data
      ⟨"absent text".data, "x".data⟩
      ⟨true, true, true, true, true, true, true, true⟩).content =
      "hello world".data :=
  perform_not_found_unchanged "test-file.txt" (some 11) "hello world".data
    ⟨"absent text".data, "x".data⟩
    ⟨true, true, true, true, true, true, true, true⟩ (by decide)

/-- C3: when the search text occurs exactly once, any successful run of the
diff/patch engine leaves exactly the content the in-memory engine
computes: the two strategies produce byte-identical file content. -/
theorem strategy_equivalence (fp : String) (content : JStr)
    (block : SearchReplace) (o : GitOracle)
    (_honce : occCount block.search content = 1)
    (hok : (gitBasedReplace fp content block o).outcome = .ok ()) :
    simpleInMemoryReplace fp content block =
      .ok ((gitBasedReplace fp content block o).content) := by
  rcases gitBody_cases fp content block o with ⟨i, hi, hbody⟩ | ⟨e, herr⟩
  · simp [gitBasedReplace, hbody, simpleInMemoryReplace, hi]
  · rw [gitBasedReplace, herr] at hok
    cases hok

/-- Witness for C3: a unique occurrence, all git steps succeeding. -/
theorem strategy_equivalence_witness :
    simpleInMemoryReplace "f.txt" "one UNIQUE line".data
      ⟨"UNIQUE".data, "REPLACED".data⟩ =
      .ok ((gitBasedReplace "f.txt" "one UNIQUE line".data
        ⟨"UNIQUE".data, "REPLACED".data⟩
        ⟨true, true, true, true, true, true, true, true⟩).content) :=
  strategy_equivalence "f.txt" "one UNIQUE line".data
    ⟨"UNIQUE".data, "REPLACED".data⟩
    ⟨true, true, true, true, true, true, true, true⟩ (by decide) (by decide)

/-! ### Line splitting and joining -/

theorem splitLines_cons (c : Char) (t : JStr) :
    splitLines (c :: t) =
      if c = '\n' then [] :: splitLines t
      else
        match splitLines t with
        | [] => [[c]]
        | h :: r => (c :: h) :: r := rfl

theorem splitLines_no_newline : ∀ x : JStr, '\n' ∉ x → splitLines x = [x] := by
  intro x
  induction x with
  | nil => intro _; rfl
  | cons c t ih =>
    intro hx
    have hc : ¬ c = '\n' := fun h => hx (by simp [h])
    have ht : '\n' ∉ t := fun h => hx (List.mem_cons_of_mem c h)
    rw [splitLines_cons, if_neg hc, ih ht]

theorem splitLines_append (x rest : JStr) (hx : '\n' ∉ x) :
    splitLines (x ++ '\n' :: rest) = x :: splitLines rest := by
  induction x with
  | nil => rw [List.nil_append, splitLines_cons, if_pos rfl]
  | cons c t ih =>
    have hc : ¬ c = '\n' := fun h => hx (by simp [h])
    have ht : '\n' ∉ t := fun h => hx (List.mem_cons_of_mem c h)
    rw [List.cons_append, splitLines_cons, if_neg hc, ih ht]

theorem joinLines_cons₂ (x y : JStr) (ys : List JStr) :
    joinLines (x :: y :: ys) = x ++ '\n' :: joinLines (y :: ys) := rfl

theorem splitLines_joinLines : ∀ ls : List JStr, ls ≠ [] →
    (∀ l ∈ ls, '\n' ∉ l) → splitLines (joinLines ls) = ls := by
  intro ls
  induction ls with
  | nil => intro hne _; exact absurd rfl hne
  | cons x t ih =>
    intro _ hnl
    cases t with
    | nil => exact splitLines_no_newline x (hnl x (by simp))
    | cons y ys =>
      rw [joinLines_cons₂, splitLines_append x _ (hnl x (by simp)),
        ih (by simp) (fun l hl => hnl l (List.mem_cons_of_mem x hl))]

/-! ### Line index lemmas -/

theorem lineIndexOf_cons (x y : JStr) (t : List JStr) :
    lineIndexOf x (y :: t) =
      if y = x then some 0 else (lineIndexOf x t).map (· + 1) := rfl

theorem lineIndexOf_append_of_not_mem (x : JStr) :
    ∀ (l l' : List JStr), x ∉ l →
    lineIndexOf x (l ++ l') = (lineIndexOf x l').map (· + l.length) := by
  intro l
  induction l with
  | nil =>
    intro l' _
    rw [List.nil_append]
    cases lineIndexOf x l' <;> simp
  | cons y t ih =>
    intro l' hx
    have hyx : ¬ y = x := fun h => hx (by simp [h])
    have hxt : x ∉ t := fun h => hx (List.mem_cons_of_mem y h)
    rw [List.cons_append, lineIndexOf_cons, if_neg hyx, ih l' hxt]
    cases lineIndexOf x l' with
    | none => rfl
    | some k => simp; omega

/-- C4: for every well-formed block text — first line the file path, then
the `<<<<<<< SEARCH` line, any number of search lines, the `=======` line,
any number of replace lines, and the `>>>>>>> REPLACE` line, where no
content line collides with a later marker — `parseEditBlock` returns the
trimmed first line as the path, the newline-join of the search lines, and
the newline-join of the replace lines. -/
theorem parseEditBlock_wellFormed (p : JStr) (sl rl : List JStr)
    (hpnl : '\n' ∉ p) (hp1 : p ≠ searchMarker) (hp2 : p ≠ dividerMarker)
    (hp3 : p ≠ replaceMarker)
    (hslnl : ∀ l ∈ sl, '\n' ∉ l) (hsld : dividerMarker ∉ sl)
    (hslr : replaceMarker ∉ sl)
    (hrlnl : ∀ l ∈ rl, '\n' ∉ l) (hrlr : replaceMarker ∉ rl) :
    parseEditBlock (joinLines (p :: searchMarker ::
        (sl ++ dividerMarker :: (rl ++ [replaceMarker])))) =
      .ok (jsTrim p, ⟨joinLines sl, joinLines rl⟩) := by
  have hmnl1 : '\n' ∉ searchMarker := by decide
  have hmnl2 : '\n' ∉ dividerMarker := by decide
  have hmnl3 : '\n' ∉ replaceMarker := by decide
  have hm12 : searchMarker ≠ dividerMarker := by decide
  have hm13 : searchMarker ≠ replaceMarker := by decide
  have hm23 : dividerMarker ≠ replaceMarker := by decide
  set L : List JStr :=
    p :: searchMarker :: (sl ++ dividerMarker :: (rl ++ [replaceMarker]))
    with hLdef
  have hsplit : splitLines (joinLines L) = L := by
    refine splitLines_joinLines L (by simp [hLdef]) ?_
    intro l hl
    rw [hLdef] at hl
    simp only [List.mem_cons, List.mem_append] at hl
    rcases hl with rfl | rfl | hl | rfl | hl | hl
    · exact hpnl
    · exact hmnl1
    · exact hslnl l hl
    · exact hmnl2
    · exact hrlnl l hl
    · simp at hl; rw [hl]; exact hmnl3
  have hs_idx : lineIndexOf searchMarker L = some 1 := by
    rw [hLdef, lineIndexOf_cons, if_neg hp1, lineIndexOf_cons, if_pos rfl]
    rfl
  have hd_idx : lineIndexOf dividerMarker L = some (sl.length + 2) := by
    have hview : L = (p :: searchMarker :: sl) ++
        (dividerMarker :: (rl ++ [replaceMarker])) := by simp [hLdef]
    have hnm : dividerMarker ∉ p :: searchMarker :: sl := by
      simp only [List.mem_cons]
      rintro (h | h | h)
      · exact hp2 h.symm
      · exact hm12 h.symm
      · exact hsld h
    rw [hview, lineIndexOf_append_of_not_mem _ _ _ hnm,
      lineIndexOf_cons, if_pos rfl]
    simp
  have hr_idx : lineIndexOf replaceMarker L =
      some (sl.length + rl.length + 3) := by
    have hview : L = (p :: searchMarker :: (sl ++ dividerMarker :: rl)) ++
        [replaceMarker] := by simp [hLdef]
    have hnm : replaceMarker ∉
        p :: searchMarker :: (sl ++ dividerMarker :: rl) := by
      simp only [List.mem_cons, List.mem_append]
      rintro (h | h | h | h | h)
      · exact hp3 h.symm
      · exact hm13 h.symm
      · exact hslr h
      · exact hm23 h.symm
      · exact hrlr h
    rw [hview, lineIndexOf_append_of_not_mem _ _ _ hnm,
      lineIndexOf_cons, if_pos rfl]
    simp
    omega
  have hhead : L.headD [] = p := by rw [hLdef]; rfl
  have hdrop2 : L.drop 2 = sl ++ dividerMarker :: (rl ++ [replaceMarker]) := by
    rw [hLdef]; rfl
  have hslice1 : (L.drop 2).take sl.length = sl := by
    rw [hdrop2]; exact List.take_left _ _
  have hdrop3 : L.drop (sl.length + 3) = rl ++ [replaceMarker] := by
    have hview : L = (p :: searchMarker :: (sl ++ [dividerMarker])) ++
        (rl ++ [replaceMarker]) := by simp [hLdef]
    have hlen : (p :: searchMarker :: (sl ++ [dividerMarker])).length =
        sl.length + 3 := by simp
    rw [hview, ← hlen, List.drop_left]
  have hslice2 : (L.drop (sl.length + 3)).take rl.length = rl := by
    rw [hdrop3]; exact List.take_left _ _
  simp only [parseEditBlock, hsplit, hs_idx, hd_idx, hr_idx, hhead]
  have e1 : sl.length + 2 - (1 + 1) = sl.length := by omega
  have e2 : sl.length + 2 + 1 = sl.length + 3 := by omega
  have e3 : sl.length + rl.length + 3 - (sl.length + 2 + 1) = rl.length := by
    omega
  rw [e1, e2, e3, hslice1, hslice2]

/-- Witness for C4, at the documented example block. -/
theorem parseEditBlock_wellFormed_witness :
    parseEditBlock (joinLines ("test-file.txt".data :: searchMarker ::
        (["original content".data] ++ dividerMarker ::
          (["new content".data] ++ [replaceMarker])))) =
      .ok (jsTrim "test-file.txt".data,
        ⟨joinLines ["original content".data],
         joinLines ["new content".data]⟩) :=
  parseEditBlock_wellFormed "test-file.txt".data
    ["original content".data] ["new content".data]
    (by decide) (by decide) (by decide) (by decide) (by decide)
    (by decide) (by decide) (by decide) (by decide)

theorem lineIndexOf_isSome (x : JStr) : ∀ l : List JStr,
    (lineIndexOf x l).isSome ↔ x ∈ l := by
  intro l
  induction l with
  | nil => simp [lineIndexOf]
  | cons y t ih =>
    by_cases hyx : y = x
    · simp [lineIndexOf_cons, hyx]
    · rw [lineIndexOf_cons, if_neg hyx]
      cases hrec : lineIndexOf x t with
      | none =>
        rw [hrec] at ih
        simp only [Option.isSome_none] at ih
        simp [hyx, ← ih, hrec]
        exact fun h => hyx h.symm
      | some k =>
        rw [hrec] at ih
        simp only [Option.isSome_some] at ih
        simp [hyx, ← ih, hrec]

/-- C5 counterexample: a block whose three markers are all present but out
of order (divider first) is not rejected — `parseEditBlock` returns a
result, with an empty search section and the opening marker as the replace
section. -/
theorem parseEditBlock_misordered_counterexample :
    parseEditBlock "p\n=======\n<<<<<<< SEARCH\n>>>>>>> REPLACE".data =
      .ok ("p".data, ⟨[], "<<<<<<< SEARCH".data⟩) := by decide

/-- C5 (amended): `parseEditBlock` fails with the format error exactly when
one of the three marker lines is absent; when all three are present — in
any order — it returns a result rather than failing. -/
theorem parseEditBlock_marker_presence (blockContent : JStr) :
    ((searchMarker ∈ splitLines blockContent ∧
      dividerMarker ∈ splitLines blockContent ∧
      replaceMarker ∈ splitLines blockContent) →
        ∃ r, parseEditBlock blockContent = .ok r) ∧
    (¬ (searchMarker ∈ splitLines blockContent ∧
        dividerMarker ∈ splitLines blockContent ∧
        replaceMarker ∈ splitLines blockContent) →
      parseEditBlock blockContent =
        .error "Invalid edit block format. REQUIRED: Exact markers") := by
  constructor
  · rintro ⟨h1, h2, h3⟩
    obtain ⟨s, hs⟩ := Option.isSome_iff_exists.mp
      ((lineIndexOf_isSome searchMarker (splitLines blockContent)).mpr h1)
    obtain ⟨d, hd⟩ := Option.isSome_iff_exists.mp
      ((lineIndexOf_isSome dividerMarker (splitLines blockContent)).mpr h2)
    obtain ⟨r, hr⟩ := Option.isSome_iff_exists.mp
      ((lineIndexOf_isSome replaceMarker (splitLines blockContent)).mpr h3)
    exact ⟨(jsTrim ((splitLines blockContent).headD []),
      ⟨joinLines (List.take (d - (s + 1))
          (List.drop (s + 1) (splitLines blockContent))),
        joinLines (List.take (r - (d + 1))
          (List.drop (d + 1) (splitLines blockContent)))⟩),
      by simp only [parseEditBlock, hs, hd, hr]⟩
  · intro hne
    rcases hs : lineIndexOf searchMarker (splitLines blockContent) with _ | s <;>
    rcases hd : lineIndexOf dividerMarker (splitLines blockContent) with _ | d <;>
    rcases hr : lineIndexOf replaceMarker (splitLines blockContent) with _ | r <;>
      first
        | exact absurd
            ⟨(lineIndexOf_isSome searchMarker _).mp (by rw [hs]; rfl),
             (lineIndexOf_isSome dividerMarker _).mp (by rw [hd]; rfl),
             (lineIndexOf_isSome replaceMarker _).mp (by rw [hr]; rfl)⟩ hne
        | simp only [parseEditBlock, hs, hd, hr]

/-- Witness for C5: a block with no markers is rejected with the format
error. -/
theorem parseEditBlock_marker_presence_witness :
    parseEditBlock "p\nno markers here".data =
      .error "Invalid edit block format. REQUIRED: Exact markers" :=
  (parseEditBlock_marker_presence "p\nno markers here".data).2 (by decide)

/-- C6 counterexample: on a large file where both the git engine and the
fallback fail, the caller does not observe the in-memory engine's error
itself — the propagated error carries the outer handler's prefix. -/
theorem dispatch_policy_counterexample :
    simpleInMemoryReplace "big.txt" "hello world".data
      ⟨"absent".data, "x".data⟩ =
      .error "Search content not found in big.txt" ∧
    (performSearchReplace "big.txt" (some 2000000) "hello world".data
      ⟨"absent".data, "x".data⟩
      ⟨true, true, true, true, true, true, true, true⟩).outcome ≠
      .error "Search content not found in big.txt" := by decide

/-- C6 (amended): files with stat size under 1,000,000 bytes go directly to
the in-memory engine (the git oracle is never consulted); otherwise the git
engine runs first, and on any git error exactly one fallback attempt is
made through the in-memory engine, whose error — if it also fails — is
the one propagated, wrapped by the outer handler with the prefix
`Failed to perform search/replace: `. -/
theorem dispatch_policy (fp : String) (size : Nat) (content : JStr)
    (block : SearchReplace) (o o' : GitOracle) :
    (size < 1000000 →
      performSearchReplace fp (some size) content block o =
        performSearchReplace fp (some size) content block o' ∧
      performSearchReplace fp (some size) content block o =
        (match simpleInMemoryReplace fp content block with
          | .ok c => ⟨.ok (), c⟩
          | .error e => ⟨.error (wrapErr e), content⟩)) ∧
    (¬ size < 1000000 →
      ((gitBasedReplace fp content block o).outcome = .ok () →
        performSearchReplace fp (some size) content block o =
          ⟨.ok (), (gitBasedReplace fp content block o).content⟩) ∧
      (∀ g, (gitBasedReplace fp content block o).outcome = .error g →
        performSearchReplace fp (some size) content block o =
          (match simpleInMemoryReplace fp content block with
            | .ok c => ⟨.ok (), c⟩
            | .error e => ⟨.error (wrapErr e), content⟩))) := by
  constructor
  · intro hsz
    constructor <;> simp [performSearchReplace, hsz]
  · intro hsz
    constructor
    · intro hok
      rcases hb : gitBody fp content block o with e | c
      · simp [gitBasedReplace, hb] at hok
      · simp [performSearchReplace, hsz, gitBasedReplace, hb]
    · intro g hg
      rcases hb : gitBody fp content block o with e | c
      · rcases hsimple : simpleInMemoryReplace fp content block with e2 | c2 <;>
          simp [performSearchReplace, hsz, gitBasedReplace, hb, hsimple]
      · simp [gitBasedReplace, hb] at hg

/-- Witness for C6: a large file, git failing at mkdir, fallback failing at
search — the observed error is the wrapped in-memory error. -/
theorem dispatch_policy_witness :
    (performSearchReplace "w.txt" (some 1500000) "abc".data
      ⟨"zz".data, "y".data⟩
      ⟨false, true, true, true, true, true, true, true⟩).outcome =
      .error (wrapErr "Search content not found in w.txt") := by
  have h := (dispatch_policy "w.txt" 1500000 "abc".data ⟨"zz".data, "y".data⟩
    ⟨false, true, true, true, true, true, true, true⟩
    ⟨false, true, true, true, true, true, true, true⟩).2 (by decide)
  have h2 := h.2 "mkdir failed" (by decide)
  rw [h2]
  decide

/-- C7 counterexample: on a small file with an absent search string, the
error the caller observes is not the in-memory engine's error — it carries
the outer handler's prefix. -/
theorem small_error_counterexample :
    simpleInMemoryReplace "small.txt" "abc".data ⟨"zz".data, "y".data⟩ =
      .error "Search content not found in small.txt" ∧
    (performSearchReplace "small.txt" (some 3) "abc".data
      ⟨"zz".data, "y".data⟩
      ⟨true, true, true, true, true, true, true, true⟩).outcome ≠
      .error "Search content not found in small.txt" := by decide

/-- C7 (amended): for files under 1,000,000 bytes, when the in-memory
engine fails `performSearchReplace` propagates that engine's error wrapped
by the outer handler: the caller observes `Failed to perform
search/replace: ` followed by the engine's message, and the file content is
unchanged. -/
theorem small_error_wrapped (fp : String) (size : Nat) (content : JStr)
    (block : SearchReplace) (o : GitOracle) (e : String)
    (hsz : size < 1000000)
    (he : simpleInMemoryReplace fp content block = .error e) :
    (performSearchReplace fp (some size) content block o).outcome =
      .error (wrapErr e) ∧
    (performSearchReplace fp (some size) content block o).content =
      content := by
  constructor <;> simp [performSearchReplace, hsz, he]

/-- Witness for C7: concrete small file with absent search text. -/
theorem small_error_wrapped_witness :
    (performSearchReplace "s.txt" (some 7) "content".data
      ⟨"nope".data, "y".data⟩
      ⟨true, true, true, true, true, true, true, true⟩).outcome =
      .error (wrapErr "Search content not found in s.txt") ∧
    (performSearchReplace "s.txt" (some 7) "content".data
      ⟨"nope".data, "y".data⟩
      ⟨true, true, true, true, true, true, true, true⟩).content =
      "content".data :=
  small_error_wrapped "s.txt" 7 "content".data ⟨"nope".data, "y".data⟩
    ⟨true, true, true, true, true, true, true, true⟩
    "Search content not found in s.txt" (by decide) (by decide)

/-- C8: whatever the outcome of any step, the cleanup phase of
`gitBasedReplace` always runs; the temp directory is removed exactly when
the removal call succeeds; and a cleanup failure never changes the primary
outcome or the file content. -/
theorem git_cleanup_always (fp : String) (content : JStr)
    (block : SearchReplace) (mk cp ini cm df ap ap3 b b' : Bool) :
    (gitBasedReplace fp content block
        ⟨mk, cp, ini, cm, df, ap, ap3, b⟩).cleanupRan = true ∧
    (gitBasedReplace fp content block
        ⟨mk, cp, ini, cm, df, ap, ap3, b⟩).tempRemoved = b ∧
    (gitBasedReplace fp content block
        ⟨mk, cp, ini, cm, df, ap, ap3, b⟩).outcome =
      (gitBasedReplace fp content block
        ⟨mk, cp, ini, cm, df, ap, ap3, b'⟩).outcome ∧
    (gitBasedReplace fp content block
        ⟨mk, cp, ini, cm, df, ap, ap3, b⟩).content =
      (gitBasedReplace fp content block
        ⟨mk, cp, ini, cm, df, ap, ap3, b'⟩).content := by
  have hb' : gitBody fp content block ⟨mk, cp, ini, cm, df, ap, ap3, b'⟩ =
      gitBody fp content block ⟨mk, cp, ini, cm, df, ap, ap3, b⟩ := rfl
  rcases hb : gitBody fp content block ⟨mk, cp, ini, cm, df, ap, ap3, b⟩
    with e | c <;>
    refine ⟨?_, ?_, ?_, ?_⟩ <;>
    simp [gitBasedReplace, hb, hb'.trans hb]

/-- C9: the git command lines are built by plain string interpolation with
no quoting, so a directory or base name containing a space is not the path
the shell's `cd` (or `git add`) actually receives. -/
theorem command_interpolation_unquoted :
    gitApplyCmd "/tmp/my dir" "/tmp/ws/changes.patch" =
      "cd /tmp/my dir && git apply /tmp/ws/changes.patch" ∧
    shellCdArg (gitApplyCmd "/tmp/my dir" "/tmp/ws/changes.patch") =
      "/tmp/my" ∧
    "/tmp/my" ≠ "/tmp/my dir" ∧
    shellCdArg (gitInitCmd "/tmp/git-edit-1 2") ≠ "/tmp/git-edit-1 2" ∧
    gitCommitCmd "/tmp/ws" "my file.txt" =
      "cd /tmp/ws && git add my file.txt && git commit -m \"Original file\"" ∧
    "my file.txt".data ∉
      splitSpaces (gitCommitCmd "/tmp/ws" "my file.txt").data := by decide

/-- C10: with an empty search string the in-memory engine never raises the
not-found error — the empty string is found at index 0 — and the result is
the replace string prepended to the original content; a parsed block whose
search section is empty (adjacent opening marker and divider) yields that
empty search string. -/
theorem empty_search_matches (fp : String) (content r : JStr) :
    simpleInMemoryReplace fp content ⟨[], r⟩ = .ok (r ++ content) ∧
    parseEditBlock "f.txt\n<<<<<<< SEARCH\n=======\nX\n>>>>>>> REPLACE".data =
      .ok ("f.txt".data, ⟨[], "X".data⟩) := by
  constructor
  · have h0 : strIndexOf ([] : JStr) content = some 0 := by
      cases content <;> simp [strIndexOf, List.isPrefixOf]
    simp [simpleInMemoryReplace, h0]
  · decide
